import Mathlib

/-!
# Path handling (src/base/path.c)

A shallow embedding of the path functions of `src/base/path.c`.

Conventions of the embedding.

* A C string is the list of characters that precede its NUL terminator
  (`CStr`); none of them is NUL.  Storing NUL at an index truncates the list
  there.
* A `const char*` argument that may be `NULL` is an `Option CStr`.
* A function that can read outside its argument, or be handed `NULL` where it
  dereferences, returns an `Option`; `none` stands for that undefined run.
* `buffers_next()` and `dir_get_current()` live in files that are not part of
  the sources at hand.  The text the pool buffer holds when it is handed out is
  the parameter `buf`; the text `dir_get_current()` returns is the parameter
  `cwd`.  Buffer capacity is not modelled: buffers are taken to be large enough.
  The specification describes the pool as a fixed set of workspaces cycled per
  call, where "a new call may reuse/overwrite a previously returned buffer's
  storage": a buffer that is handed out again holds the text an earlier path
  function wrote into it.
* `PLATFORM_WINDOWS` is a compile-time switch; it is the parameter `windows`.
-/

namespace Path

/-- A C string: its characters up to, and without, the NUL terminator. -/
abbrev CStr := List Char

/-! ## The C library routines the file uses -/

/-- Read `s[i]`.  Index `s.length` holds the terminator; anything beyond it is
outside the string. -/
def readChar (s : CStr) (i : Nat) : Option Char :=
  if i < s.length then s.get? i
  else if i = s.length then some (Char.ofNat 0)
  else none

/-- The function `strlen`. -/
def strlen (s : CStr) : Nat := s.length

/-- The function `strcpy(dst, src)`: the destination's text becomes `src`. -/
def strcpy (_dst src : CStr) : CStr := src

/-- The function `strcat(dst, src)`: `src` is appended to the destination's text. -/
def strcat (dst src : CStr) : CStr := dst ++ src

/-- The function `strchr(s, c)` for a non-NUL `c`: index of the first `c`, if any. -/
def strchr : CStr → Char → Option Nat
  | [], _ => none
  | x :: xs, c => if x = c then some 0 else (strchr xs c).map (· + 1)

/-- The function `strrchr(s, c)` for a non-NUL `c`: index of the last `c`, if any. -/
def strrchr : CStr → Char → Option Nat
  | [], _ => none
  | x :: xs, c =>
    match strrchr xs c with
    | some i => some (i + 1)
    | none => if x = c then some 0 else none

/-- Store NUL at index `i` (`*ptr = 0`): the text ends there. -/
def truncateAt (s : CStr) (i : Nat) : CStr := s.take i

/-- Modelled from the spec: `cstr_eq` of base/cstr.h is not among the sources;
the spec compares a segment with `..` and `.` for equality of text. -/
def cstr_eq (a b : CStr) : Bool := decide (a = b)

/-- Modelled from the spec: `cstr_ends_with` of base/cstr.h is not among the
sources; the spec asks whether the leading path "already ends with" the
separator. -/
def cstr_ends_with (s suffix : CStr) : Bool := suffix.isSuffixOf s

/-! ## path_is_absolute (path.c, lines 124-133) -/

/-- Reads `path[0]`, and `path[1]` only when `path[0]` is no separator. -/
def path_is_absolute (path : CStr) : Option Bool :=
  match readChar path 0 with
  | none => none
  | some c0 =>
    if c0 = '/' ∨ c0 = '\\' then some true
    else
      match readChar path 1 with
      | none => none
      | some c1 => if c1 = ':' then some true else some false

/-! ## path_translate (path.c, lines 181-206) -/

/-- The loop `for (ptr = buffer; *ptr; ++ptr)` of path_translate, run over the
characters of the buffer, for `*sep` a character `c`: every `/` and `\` is
overwritten with `c`. -/
def translateChars (c : Char) : CStr → CStr
  | [] => []
  | x :: xs => (if x = '/' ∨ x = '\\' then c else x) :: translateChars c xs

/-- The loop of path_translate when `*sep` is NUL (an empty `sep`): every `/`
and `\` is overwritten with the terminator, so the text ends at the first of
them. -/
def cutAtSeparator : CStr → CStr
  | [] => []
  | x :: xs => if x = '/' ∨ x = '\\' then [] else x :: cutAtSeparator xs

def path_translate (windows : Bool) (buf : CStr) (path : CStr) (sep : Option CStr) : CStr :=
  let sep : CStr :=
    match sep with
    | none => if windows then ['\\'] else ['/']
    | some s => s
  let buffer := strcpy buf path
  match sep with
  | [] => cutAtSeparator buffer
  | c :: _ => translateChars c buffer

/-! ## path_directory (path.c, lines 98-116) -/

def path_directory (buf : CStr) (path : CStr) : CStr :=
  let buffer := strcpy buf path
  match strrchr buffer '/' with
  | some ptr => truncateAt buffer ptr
  | none => truncateAt buffer 0

/-! ## path_join (path.c, lines 144-172) -/

def path_join (buf : CStr) (leading trailing : Option CStr) : Option CStr :=
  let buffer := buf
  match trailing with
  | none =>
    match leading with
    | none => none
    | some l => some (strcpy buffer l)
  | some t =>
    let copyTrailing : Option Bool :=
      match leading with
      | none => some true
      | some _ => path_is_absolute t
    match copyTrailing with
    | none => none
    | some true => some (strcpy buffer t)
    | some false =>
      let buffer :=
        match leading with
        | some l => strcat buffer l
        | none => buffer
      let buffer :=
        if strlen buffer > 0 ∧ ¬ cstr_ends_with buffer ['/'] then strcat buffer ['/']
        else buffer
      some (strcat buffer t)

/-! ## path_assemble (path.c, lines 75-89) -/

def path_assemble (buf : CStr) (dir filename : CStr) (ext : Option CStr) : Option CStr :=
  match path_join buf (some dir) (some filename) with
  | none => none
  | some buffer =>
    match ext with
    | some e => some (strcat buffer e)
    | none => some buffer

/-! ## path_absolute (path.c, lines 23-65) -/

/-- One run of the body of `while (source)`: the new `source` (none for
`NULL`) and the new `result`. -/
def absoluteStep (source result : CStr) : Option CStr × CStr :=
  let end_ := strchr source '/'
  let segment :=
    match end_ with
    | some e => truncateAt source e
    | none => source
  let result :=
    if cstr_eq segment ['.', '.'] then
      match strrchr result '/' with
      | some up => truncateAt result up
      | none => result
    else if ¬ cstr_eq segment ['.'] then
      strcat (strcat result ['/']) segment
    else result
  (match end_ with
   | some e => some (source.drop (e + 1))
   | none => none,
   result)

/-- The loop `while (source) { ... }`, bounded by `fuel` runs of the body;
`none` when the bound is reached before `source` is `NULL`. -/
def absoluteLoop : Nat → Option CStr → CStr → Option CStr
  | _, none, result => some result
  | 0, some _, _ => none
  | fuel + 1, some source, result =>
    let next := absoluteStep source result
    absoluteLoop fuel next.1 next.2

/-- The call `path_translate(path, "/")` names its separator, so the platform
switch of path_translate is not reached. -/
def path_absolute (buf cwd : CStr) (path : CStr) : Option CStr :=
  let source := path_translate false buf path (some ['/'])
  let source := if strlen source = 0 then strcpy source ['.'] else source
  match path_is_absolute source with
  | none => none
  | some true => some source
  | some false =>
    let result := cwd
    absoluteLoop (strlen source + 1) (some source) result

/-! ## The words of the specification -/

/-- The segments of a path: the pieces between its `/` characters. -/
def segments (s : CStr) : List CStr := s.splitOn '/'

/-- Remove everything from the last `/` of `acc` onward. -/
def popSegment (acc : CStr) : CStr :=
  if '/' ∈ acc then ((acc.reverse.dropWhile (fun x => x != '/')).drop 1).reverse else acc

/-- What one segment does to the accumulated result: `..` pops, `.` contributes
nothing, any other segment appends `/` followed by the segment. -/
def foldSegment (acc seg : CStr) : CStr :=
  if seg = ['.', '.'] then popSegment acc
  else if seg = ['.'] then acc
  else acc ++ '/' :: seg

/-- Fold the segments left to right over the current directory. -/
def resolveSegments (cwd : CStr) (segs : List CStr) : CStr :=
  segs.foldl foldSegment cwd

/-- The path made of `k` segments `..`: empty for `k = 0`, otherwise `..`
repeated `k` times with `/` in between. -/
def dotdotPath : Nat → CStr
  | 0 => []
  | 1 => ['.', '.']
  | k + 2 => '.' :: '.' :: '/' :: dotdotPath (k + 1)

/-! ## The code with its reads and loop runs recorded -/

/-- The function path_is_absolute together with the indices of `path` it
reads, in the order it reads them. -/
def path_is_absolute_traced (path : CStr) : List Nat × Option Bool :=
  match readChar path 0 with
  | none => ([0], none)
  | some c0 =>
    if c0 = '/' ∨ c0 = '\\' then ([0], some true)
    else
      match readChar path 1 with
      | none => ([0, 1], none)
      | some c1 => ([0, 1], if c1 = ':' then some true else some false)

/-- The string path_absolute hands to path_is_absolute (path.c, lines 31-33):
the translation of the path to `/`, replaced by `.` when it is empty. -/
def absoluteSource (buf path : CStr) : CStr :=
  let source := path_translate false buf path (some ['/'])
  if strlen source = 0 then strcpy source ['.'] else source

/-- The text `source` points at once `*end = 0` is stored: the segment the
loop body works on. -/
def currentSegment (source : CStr) : CStr :=
  match strchr source '/' with
  | some e => truncateAt source e
  | none => source

/-- The loop `while (source) { ... }` with the segments of its body runs
recorded, oldest first, in `seen`. -/
def absoluteLoopTraced : Nat → Option CStr → CStr → List CStr → Option (List CStr × CStr)
  | _, none, result, seen => some (seen, result)
  | 0, some _, _, _ => none
  | fuel + 1, some source, result, seen =>
    let next := absoluteStep source result
    absoluteLoopTraced fuel next.1 next.2 (seen ++ [currentSegment source])

/-! ## Lemmas on the library routines -/

theorem strchr_none {s : CStr} {c : Char} (h : strchr s c = none) : c ∉ s := by
  induction s with
  | nil => simp
  | cons x xs ih =>
    simp only [strchr] at h
    split at h
    · simp at h
    · rename_i hx
      simp only [Option.map_eq_none'] at h
      simp only [List.mem_cons, not_or]
      exact ⟨fun e => hx e.symm, ih h⟩

theorem strchr_some {s : CStr} {c : Char} {i : Nat} (h : strchr s c = some i) :
    s = s.take i ++ c :: s.drop (i + 1) ∧ c ∉ s.take i ∧ i < s.length := by
  induction s generalizing i with
  | nil => simp [strchr] at h
  | cons x xs ih =>
    simp only [strchr] at h
    split at h
    · rename_i hx
      cases h
      simp [hx]
    · rename_i hx
      simp only [Option.map_eq_some'] at h
      obtain ⟨j, hj, rfl⟩ := h
      obtain ⟨h1, h2, h3⟩ := ih hj
      refine ⟨?_, ?_, ?_⟩
      · simp only [List.take_succ_cons, List.drop_succ_cons, List.cons_append]
        rw [← h1]
      · simp only [List.take_succ_cons, List.mem_cons, not_or]
        exact ⟨fun e => hx e.symm, h2⟩
      · simp only [List.length_cons]; omega

theorem strrchr_none {s : CStr} {c : Char} (h : strrchr s c = none) : c ∉ s := by
  induction s with
  | nil => simp
  | cons x xs ih =>
    simp only [strrchr] at h
    split at h
    · simp at h
    · rename_i hr
      split at h
      · simp at h
      · rename_i hx
        simp only [List.mem_cons, not_or]
        exact ⟨fun e => hx e.symm, ih hr⟩

theorem strrchr_some {s : CStr} {c : Char} {i : Nat} (h : strrchr s c = some i) :
    s = s.take i ++ c :: s.drop (i + 1) ∧ c ∉ s.drop (i + 1) ∧ i < s.length := by
  induction s generalizing i with
  | nil => simp [strrchr] at h
  | cons x xs ih =>
    simp only [strrchr] at h
    split at h
    · rename_i j hj
      cases h
      obtain ⟨h1, h2, h3⟩ := ih hj
      refine ⟨?_, ?_, ?_⟩
      · simp only [List.take_succ_cons, List.drop_succ_cons, List.cons_append]
        rw [← h1]
      · simpa using h2
      · simp only [List.length_cons]; omega
    · rename_i hr
      split at h
      · rename_i hx
        cases h
        have := strrchr_none hr
        simp [hx, this]
      · simp at h

/-- The last `c` of `d ++ c :: f` is at index `d.length` when `f` holds none. -/
theorem strrchr_append {c : Char} (d f : CStr) (hf : c ∉ f) :
    strrchr (d ++ c :: f) c = some d.length := by
  have hnone : strrchr f c = none := by
    cases h : strrchr f c with
    | none => rfl
    | some i =>
      have := (strrchr_some h)
      exfalso
      apply hf
      rw [this.1]
      simp
  induction d with
  | nil => simp [strrchr, hnone]
  | cons x xs ih => simp [strrchr, ih]

/-! ## Lemmas on the segment loop -/

theorem dropWhile_stop {α : Type} (q : α → Bool) (l m : List α) (x : α)
    (hl : ∀ y ∈ l, q y = true) (hx : q x = false) :
    (l ++ x :: m).dropWhile q = x :: m := by
  induction l with
  | nil => simp [List.dropWhile, hx]
  | cons y ys ih =>
    have hy : q y = true := hl y (by simp)
    simp only [List.cons_append, List.dropWhile, hy]
    exact ih (fun z hz => hl z (by simp [hz]))

/-- Popping `d ++ "/" ++ f`, with no `/` in `f`, leaves `d`. -/
theorem popSegment_append (d f : CStr) (hf : '/' ∉ f) :
    popSegment (d ++ '/' :: f) = d := by
  unfold popSegment
  have hmem : '/' ∈ d ++ '/' :: f := by simp
  rw [if_pos hmem]
  have hrev : (d ++ '/' :: f).reverse = f.reverse ++ '/' :: d.reverse := by simp
  rw [hrev, dropWhile_stop _ f.reverse d.reverse '/' ?_ (by decide)]
  · simp
  · intro y hy
    have hy2 : y ∈ f := by simpa using hy
    have : y ≠ '/' := fun e => hf (e ▸ hy2)
    simpa using this

/-- The code's handling of `..` is the pop of the specification. -/
theorem strrchr_pop (result : CStr) :
    (match strrchr result '/' with
      | some up => truncateAt result up
      | none => result) = popSegment result := by
  cases h : strrchr result '/' with
  | none =>
    have := strrchr_none h
    simp [popSegment, this]
  | some up =>
    obtain ⟨h1, h2, _⟩ := strrchr_some h
    simp only [truncateAt]
    conv_rhs => rw [h1]
    rw [popSegment_append _ _ h2]

/-- The result component of one loop body is the fold step of the
specification, applied to the segment before the first `/`. -/
theorem absoluteStep_snd (source result : CStr) :
    (absoluteStep source result).2 =
      foldSegment result
        (match strchr source '/' with
          | some e => source.take e
          | none => source) := by
  have hpop := strrchr_pop result
  simp only [truncateAt] at hpop
  simp only [absoluteStep, foldSegment, cstr_eq, truncateAt, strcat, decide_eq_true_eq]
  split
  · exact hpop
  · split <;> simp_all

theorem segments_of_strchr_none {s : CStr} (h : strchr s '/' = none) :
    segments s = [s] := by
  have hn := strchr_none h
  unfold segments List.splitOn
  apply List.splitOnP_eq_single
  intro x hx
  have : x ≠ '/' := fun e => hn (e ▸ hx)
  simpa using this

theorem segments_of_strchr_some {s : CStr} {e : Nat} (h : strchr s '/' = some e) :
    segments s = s.take e :: segments (s.drop (e + 1)) := by
  obtain ⟨h1, h2, _⟩ := strchr_some h
  unfold segments List.splitOn
  conv_lhs => rw [h1]
  apply List.splitOnP_first
  · intro x hx
    have : x ≠ '/' := fun e => h2 (e ▸ hx)
    simpa using this
  · simp

/-- With more fuel than the source has characters, the loop returns the fold of
the specification over the segments of the source. -/
theorem absoluteLoop_eq_fold (fuel : Nat) (source result : CStr)
    (hfuel : source.length < fuel) :
    absoluteLoop fuel (some source) result =
      some (resolveSegments result (segments source)) := by
  induction fuel generalizing source result with
  | zero => omega
  | succ n ih =>
    simp only [absoluteLoop]
    have hsnd := absoluteStep_snd source result
    cases h : strchr source '/' with
    | none =>
      have hfst : (absoluteStep source result).1 = none := by
        simp [absoluteStep, h]
      rw [hfst, hsnd, h, segments_of_strchr_none h]
      cases n <;> simp [absoluteLoop, resolveSegments]
    | some e =>
      have hfst : (absoluteStep source result).1 = some (source.drop (e + 1)) := by
        simp [absoluteStep, h]
      obtain ⟨_, _, hlt⟩ := strchr_some h
      rw [hfst, hsnd, h, segments_of_strchr_some h]
      rw [ih _ _ (by simp only [List.length_drop]; omega)]
      simp [resolveSegments]

/-! ## Lemmas on path_is_absolute and path_translate -/

theorem path_is_absolute_nil : path_is_absolute [] = none := by
  simp [path_is_absolute, readChar]

theorem path_is_absolute_cons (x : Char) (xs : CStr) :
    path_is_absolute (x :: xs) =
      some (decide (x = '/' ∨ x = '\\' ∨ xs.head? = some ':')) := by
  cases xs with
  | nil =>
    have h0 : Char.ofNat 0 ≠ ':' := by decide
    by_cases hx : x = '/' ∨ x = '\\'
    · rcases hx with hx | hx <;> simp [path_is_absolute, readChar, hx]
    · have hx2 := hx
      simp only [not_or] at hx2
      simp [path_is_absolute, readChar, hx, hx2.1, hx2.2, h0]
  | cons y ys =>
    by_cases hx : x = '/' ∨ x = '\\'
    · rcases hx with hx | hx <;> simp [path_is_absolute, readChar, hx]
    · have hx2 := hx
      simp only [not_or] at hx2
      by_cases hy : y = ':' <;> simp [path_is_absolute, readChar, hx, hx2.1, hx2.2, hy]

theorem translateChars_length (c : Char) (p : CStr) :
    (translateChars c p).length = p.length := by
  induction p with
  | nil => rfl
  | cons x xs ih => simp [translateChars, ih]

theorem translateChars_get? (c : Char) (p : CStr) (i : Nat) :
    (translateChars c p).get? i =
      (p.get? i).map (fun x => if x = '/' ∨ x = '\\' then c else x) := by
  induction p generalizing i with
  | nil => simp [translateChars]
  | cons x xs ih =>
    cases i with
    | zero => simp [translateChars]
    | succ j => simpa [translateChars] using ih j

theorem translateChars_append (c : Char) (p q : CStr) :
    translateChars c (p ++ q) = translateChars c p ++ translateChars c q := by
  induction p with
  | nil => rfl
  | cons x xs ih => simp [translateChars, ih]

theorem path_translate_some_cons (w : Bool) (buf p : CStr) (c : Char) (r : CStr) :
    path_translate w buf p (some (c :: r)) = translateChars c p := rfl

/-- Writing `/` or `\` over the separators does not change the verdict of
path_is_absolute. -/
theorem path_is_absolute_translateChars (c : Char) (hc : c = '/' ∨ c = '\\') (p : CStr) :
    path_is_absolute (translateChars c p) = path_is_absolute p := by
  have hcolon : c ≠ ':' := by rcases hc with h | h <;> rw [h] <;> decide
  cases p with
  | nil => rfl
  | cons x xs =>
    simp only [translateChars, path_is_absolute_cons]
    congr 1
    by_cases hx : x = '/' ∨ x = '\\'
    · simp only [if_pos hx]
      rcases hx with hx | hx <;> rcases hc with h | h <;> simp [hx, h]
    · simp only [if_neg hx]
      cases xs with
      | nil => simp [translateChars]
      | cons y ys =>
        simp only [translateChars, List.head?_cons, Option.some.injEq]
        by_cases hy : y = '/' ∨ y = '\\'
        · simp only [if_pos hy]
          have : y ≠ ':' := by rcases hy with h | h <;> rw [h] <;> decide
          simp [hcolon, this]
        · simp only [if_neg hy]

/-! ## path_absolute -/

/-- A relative source is not empty, stays relative under translation to `/`,
and path_absolute is the loop run on it from the current directory. -/
theorem path_absolute_relative (buf cwd p : CStr) (hrel : path_is_absolute p = some false) :
    path_absolute buf cwd p =
      some (resolveSegments cwd (segments (translateChars '/' p))) := by
  have hne : p ≠ [] := by
    intro e
    rw [e, path_is_absolute_nil] at hrel
    cases hrel
  have hlen : (translateChars '/' p).length ≠ 0 := by
    rw [translateChars_length]
    exact fun e => hne (List.length_eq_zero.mp e)
  have habs : path_is_absolute (translateChars '/' p) = some false := by
    rw [path_is_absolute_translateChars '/' (Or.inl rfl), hrel]
  simp only [path_absolute, path_translate_some_cons, strlen, if_neg hlen, habs]
  exact absoluteLoop_eq_fold _ _ _ (Nat.lt_succ_self _)

/-- Claim C1.  For a relative path whose segments (after translation to `/`)
are all non-empty, path_absolute returns the left-to-right fold of the segments
over the current directory: `..` removes everything from the last `/` of the
accumulated result onward, `.` contributes nothing, any other segment appends
`/` followed by the segment. -/
theorem path_absolute_folds_segments (w : Bool) (buf cwd p : CStr)
    (hrel : path_is_absolute p = some false)
    (_hseg : ∀ seg ∈ segments (path_translate w buf p (some ['/'])), seg ≠ []) :
    path_absolute buf cwd p =
      some (resolveSegments cwd (segments (path_translate w buf p (some ['/'])))) := by
  rw [path_translate_some_cons]
  exact path_absolute_relative buf cwd p hrel

/-- Witness of claim C1: from `/home/x`, `a/b/../c` resolves to `/home/x/a/c`;
from `/home/x/y`, `../x` resolves to `/home/x/x`. -/
theorem path_absolute_folds_segments_witness :
    path_absolute [] "/home/x".toList "a/b/../c".toList = some "/home/x/a/c".toList ∧
    path_absolute [] "/home/x/y".toList "../x".toList = some "/home/x/x".toList :=
  ⟨(path_absolute_folds_segments false [] "/home/x".toList "a/b/../c".toList
      (by decide) (by decide)).trans (by decide),
   (path_absolute_folds_segments false [] "/home/x/y".toList "../x".toList
      (by decide) (by decide)).trans (by decide)⟩

/-- A separator at the end of a path opens one more, empty, segment. -/
theorem segments_append_separator (s : CStr) :
    segments (s ++ ['/']) = segments s ++ [[]] := by
  induction s with
  | nil => decide
  | cons x xs ih =>
    unfold segments List.splitOn at ih ⊢
    simp only [List.cons_append, List.splitOnP_cons, ih]
    split
    · rfl
    · have hne := List.splitOnP_ne_nil (fun y => y == '/') xs
      cases hsp : List.splitOnP (fun y => y == '/') xs with
      | nil => exact absurd hsp hne
      | cons a as => rfl

/-- Claim C2, counterexample.  From `/home/x` the path `a//b` resolves to
`/home/x/a//b`: the empty segment is not skipped, the result holds `//`, and it
differs from the result for `a/b`. -/
theorem path_absolute_empty_segment_kept :
    path_absolute [] "/home/x".toList "a//b".toList = some "/home/x/a//b".toList ∧
    path_absolute [] "/home/x".toList "a//b".toList ≠
      path_absolute [] "/home/x".toList "a/b".toList ∧
    path_absolute [] "/home/x".toList "a//b".toList ≠
      path_absolute [] "/home/x".toList "a/./b".toList := by
  decide

/-- Claim C2, as amended.  For a relative path, an empty segment is handled as
any segment other than `.` and `..`: the fold appends `/` followed by the
(empty) segment, that is a bare `/`.  In particular a separator put at the end
of the path puts a `/` at the end of the result. -/
theorem path_absolute_empty_segment_appends (buf cwd p : CStr)
    (hrel : path_is_absolute p = some false) :
    path_absolute buf cwd p =
        some (resolveSegments cwd (segments (path_translate false buf p (some ['/'])))) ∧
      (∀ acc : CStr, foldSegment acc [] = acc ++ ['/']) ∧
      path_absolute buf cwd (p ++ ['/']) = (path_absolute buf cwd p).map (fun r => r ++ ['/']) := by
  refine ⟨path_absolute_relative buf cwd p hrel, fun acc => by simp [foldSegment], ?_⟩
  have hrel2 : path_is_absolute (p ++ ['/']) = some false := by
    cases p with
    | nil => rw [path_is_absolute_nil] at hrel; cases hrel
    | cons x xs =>
      rw [path_is_absolute_cons] at hrel
      rw [List.cons_append, path_is_absolute_cons]
      cases xs with
      | nil =>
        simp only [List.head?_nil, Option.some.injEq, decide_eq_false_iff_not, not_or] at hrel
        simp [hrel.1, hrel.2.1]
      | cons y ys => simpa using hrel
  rw [path_absolute_relative buf cwd _ hrel2, path_absolute_relative buf cwd p hrel,
    translateChars_append, Option.map_some']
  have ht : translateChars '/' ['/'] = ['/'] := by decide
  rw [ht, segments_append_separator]
  simp [resolveSegments, List.foldl_append, foldSegment]

/-- Witness of claim C2 as amended: from `/home/x`, `a/` resolves to `/home/x/a/`. -/
theorem path_absolute_empty_segment_appends_witness :
    path_absolute [] "/home/x".toList "a/".toList = some "/home/x/a/".toList := by
  have h := (path_absolute_empty_segment_appends [] "/home/x".toList "a".toList
    (by decide)).2.2
  exact h.trans (by decide)

/-- Claim C3, the code at the failing input.  The current directory `/home` is
absolute, yet `..` resolves to the empty string, on which path_is_absolute has
no verdict. -/
theorem path_absolute_above_top_level :
    path_is_absolute "/home".toList = some true ∧
    path_absolute [] "/home".toList "..".toList = some [] ∧
    path_is_absolute [] = none := by
  decide

/-- Claim C4.  On an absolute path, path_absolute returns the translation of
the path to `/`, whatever the current directory is. -/
theorem path_absolute_of_absolute (w : Bool) (buf buf2 cwd p : CStr)
    (habs : path_is_absolute p = some true) :
    path_absolute buf cwd p = some (path_translate w buf2 p (some ['/'])) := by
  have hne : p ≠ [] := by
    intro e
    rw [e, path_is_absolute_nil] at habs
    cases habs
  have hlen : (translateChars '/' p).length ≠ 0 := by
    rw [translateChars_length]
    exact fun e => hne (List.length_eq_zero.mp e)
  have habs2 : path_is_absolute (translateChars '/' p) = some true := by
    rw [path_is_absolute_translateChars '/' (Or.inl rfl), habs]
  simp only [path_absolute, path_translate_some_cons, strlen, if_neg hlen, habs2]

/-- Witness of claim C4: `C:\foo\..\bar` is absolute and comes back as
`C:/foo/../bar` from two different current directories. -/
theorem path_absolute_of_absolute_witness :
    path_is_absolute "C:\\foo\\..\\bar".toList = some true ∧
    path_absolute [] "/home/x".toList "C:\\foo\\..\\bar".toList =
      some "C:/foo/../bar".toList ∧
    path_absolute [] "/tmp".toList "C:\\foo\\..\\bar".toList =
      some (path_translate false [] "C:\\foo\\..\\bar".toList (some ['/'])) :=
  ⟨by decide, by decide,
   path_absolute_of_absolute false [] [] "/tmp".toList "C:\\foo\\..\\bar".toList (by decide)⟩

/-! ## path_join -/

/-- Claim C5.  With no trailing path the result is the leading path; with no
leading path, or with an absolute trailing path, the result is the trailing
path, whatever the leading path and the buffer hold. -/
theorem path_join_selects (buf l t : CStr) (lead : Option CStr)
    (h : lead = none ∨ path_is_absolute t = some true) :
    path_join buf (some l) none = some l ∧ path_join buf lead (some t) = some t := by
  refine ⟨rfl, ?_⟩
  rcases h with h | h
  · subst h; rfl
  · cases lead with
    | none => rfl
    | some x => simp [path_join, h, strcpy]

/-- Witness of claim C5: joining `a/b` with `/c/d` gives `/c/d`. -/
theorem path_join_selects_witness :
    path_join "old".toList (some "a/b".toList) none = some "a/b".toList ∧
    path_join "old".toList (some "a/b".toList) (some "/c/d".toList) = some "/c/d".toList :=
  path_join_selects "old".toList "a/b".toList "/c/d".toList (some "a/b".toList)
    (Or.inr (by decide))

theorem cstr_ends_with_separator (b : CStr) :
    cstr_ends_with b ['/'] = true ↔ b.getLast? = some '/' := by
  unfold cstr_ends_with List.isSuffixOf
  rw [← List.head?_reverse]
  cases b.reverse with
  | nil => simp [List.isPrefixOf]
  | cons x xs =>
    simp only [List.reverse_cons, List.reverse_nil, List.nil_append, List.isPrefixOf,
      List.head?_cons, Option.some.injEq, Bool.and_true, beq_iff_eq]
    exact eq_comm

/-- What path_join builds for a relative trailing path: it appends to the text
the buffer holds. -/
theorem path_join_relative (buf l t : CStr) (hrel : path_is_absolute t = some false) :
    path_join buf (some l) (some t) =
      some (if buf ++ l = [] ∨ (buf ++ l).getLast? = some '/' then buf ++ l ++ t
            else buf ++ l ++ '/' :: t) := by
  simp only [path_join, hrel, strcat, strlen]
  by_cases hnil : buf ++ l = []
  · simp [hnil]
  · have hpos : (buf ++ l).length > 0 := List.length_pos.mpr hnil
    by_cases hlast : (buf ++ l).getLast? = some '/'
    · have he := (cstr_ends_with_separator (buf ++ l)).mpr hlast
      simp [hnil, hlast, he]
    · have he : ¬ cstr_ends_with (buf ++ l) ['/'] = true :=
        fun e => hlast ((cstr_ends_with_separator (buf ++ l)).mp e)
      simp only [hpos, he, not_false_eq_true, and_self, if_true, hnil, hlast, or_self, if_false]
      simp

/-- On a buffer handed out empty, the join of a leading path and a relative
trailing path is `leading ++ trailing` if the leading path is empty or ends
with `/`, and `leading ++ "/" ++ trailing` otherwise. -/
theorem path_join_relative_empty_buffer (l t : CStr)
    (hrel : path_is_absolute t = some false) :
    path_join [] (some l) (some t) =
      some (if l = [] ∨ l.getLast? = some '/' then l ++ t else l ++ '/' :: t) := by
  have h := path_join_relative [] l t hrel
  simpa using h

/-- On an empty buffer, joining `a/b/` with `c` gives `a/b/c`, and joining
`a/b` with `c` gives the same. -/
theorem path_join_relative_empty_buffer_example :
    path_join [] (some "a/b/".toList) (some "c".toList) = some "a/b/c".toList ∧
    path_join [] (some "a/b".toList) (some "c".toList) = some "a/b/c".toList :=
  ⟨(path_join_relative_empty_buffer "a/b/".toList "c".toList (by decide)).trans (by decide),
   (path_join_relative_empty_buffer "a/b".toList "c".toList (by decide)).trans (by decide)⟩

/-- The value the join has on an empty buffer. -/
theorem path_join_empty_buffer_some (l t : CStr) (hrel : path_is_absolute t = some false) :
    ∃ r : CStr, path_join [] (some l) (some t) = some r ∧
      r = (if l = [] ∨ l.getLast? = some '/' then l ++ t else l ++ '/' :: t) := by
  have h := path_join_relative [] l t hrel
  exact ⟨_, h, by simp⟩

/-- A relative path followed by the junction and more text is relative. -/
theorem path_is_absolute_join_right (b c : CStr) (hb : path_is_absolute b = some false) :
    path_is_absolute (if b = [] ∨ b.getLast? = some '/' then b ++ c else b ++ '/' :: c)
      = some false := by
  cases b with
  | nil => rw [path_is_absolute_nil] at hb; cases hb
  | cons x xs =>
    rw [path_is_absolute_cons] at hb
    cases xs with
    | nil =>
      simp only [List.head?_nil, Option.some.injEq, decide_eq_false_iff_not, not_or] at hb
      have hx : ¬ (x = '/') := hb.1
      simp [path_is_absolute_cons, hx, hb.2.1]
    | cons y ys =>
      split <;> simpa [path_is_absolute_cons] using hb

/-- On buffers handed out empty, joining is associative on relative `b` and
`c`: both `join (join a b) c` and `join a (join b c)` return, and they return
the same text. -/
theorem path_join_assoc_empty_buffer (a b c : CStr)
    (hb : path_is_absolute b = some false) (hc : path_is_absolute c = some false) :
    ∃ ab bc r : CStr,
      path_join [] (some a) (some b) = some ab ∧
      path_join [] (some b) (some c) = some bc ∧
      path_join [] (some ab) (some c) = some r ∧
      path_join [] (some a) (some bc) = some r := by
  have hbc := path_is_absolute_join_right b c hb
  obtain ⟨ab, hab, eab⟩ := path_join_empty_buffer_some a b hb
  obtain ⟨bc, hbc1, ebc⟩ := path_join_empty_buffer_some b c hc
  obtain ⟨r1, hr1, er1⟩ := path_join_empty_buffer_some ab c hc
  rw [← ebc] at hbc
  obtain ⟨r2, hr2, er2⟩ := path_join_empty_buffer_some a bc hbc
  refine ⟨ab, bc, r1, hab, hbc1, hr1, ?_⟩
  rw [hr2]
  congr 1
  cases b with
  | nil => rw [path_is_absolute_nil] at hb; cases hb
  | cons x xs =>
    have hne : ab ≠ [] := by
      rw [eab]; split <;> simp
    have hlast : ab.getLast? = (x :: xs).getLast? := by
      rw [eab]
      split
      · exact List.getLast?_append_cons a x xs
      · exact List.getLast?_append_cons a '/' (x :: xs)
    rw [er1, er2, ebc, hlast]
    simp only [hne, false_or, reduceCtorEq]
    rw [eab]
    by_cases hB : (x :: xs).getLast? = some '/' <;>
      by_cases hA : a = [] ∨ a.getLast? = some '/' <;>
      simp [hA, hB]

/-- On empty buffers `a/b`, `c/` and `d` join to `a/b/c/d` either way. -/
theorem path_join_assoc_empty_buffer_example :
    (∃ ab bc r : CStr,
      path_join [] (some "a/b".toList) (some "c/".toList) = some ab ∧
      path_join [] (some "c/".toList) (some "d".toList) = some bc ∧
      path_join [] (some ab) (some "d".toList) = some r ∧
      path_join [] (some "a/b".toList) (some bc) = some r) ∧
    path_join [] (some "a/b/c/".toList) (some "d".toList) = some "a/b/c/d".toList ∧
    path_join [] (some "a/b".toList) (some "c/d".toList) = some "a/b/c/d".toList :=
  ⟨path_join_assoc_empty_buffer "a/b".toList "c/".toList "d".toList (by decide) (by decide),
   by decide, by decide⟩

/-- Claim C8.  On a non-empty path, path_is_absolute returns, and returns true
exactly when the first character is `/` or `\`, or the second character is
`:`. -/
theorem path_is_absolute_spec (p : CStr) (hne : p ≠ []) :
    path_is_absolute p =
      some (decide (p.get? 0 = some '/' ∨ p.get? 0 = some '\\' ∨ p.get? 1 = some ':')) := by
  cases p with
  | nil => exact absurd rfl hne
  | cons x xs =>
    rw [path_is_absolute_cons]
    cases xs <;> simp

/-- Witness of claim C8: `C:/foo` and `/foo` are absolute, `foo` is not. -/
theorem path_is_absolute_spec_witness :
    path_is_absolute "C:/foo".toList = some true ∧
    path_is_absolute "/foo".toList = some true ∧
    path_is_absolute "foo".toList = some false :=
  ⟨(path_is_absolute_spec "C:/foo".toList (by decide)).trans (by decide),
   (path_is_absolute_spec "/foo".toList (by decide)).trans (by decide),
   (path_is_absolute_spec "foo".toList (by decide)).trans (by decide)⟩

/-- With an empty separator string the loop leaves the characters before the
first `/` or `\`. -/
theorem cutAtSeparator_eq_takeWhile (p : CStr) :
    cutAtSeparator p = p.takeWhile (fun x => !(x == '/' || x == '\\')) := by
  induction p with
  | nil => rfl
  | cons x xs ih =>
    by_cases hx : x = '/' ∨ x = '\\'
    · rcases hx with h | h <;> simp [cutAtSeparator, List.takeWhile_cons, h]
    · have hx2 := hx
      simp only [not_or] at hx2
      simp [cutAtSeparator, List.takeWhile_cons, hx2.1, hx2.2, ih]

/-- Claim C9, counterexample.  With the empty string as separator, `a/b\c`
is translated to `a`: the length is 1, not 5, and index 1 holds nothing. -/
theorem path_translate_empty_separator :
    path_translate false [] "a/b\\c".toList (some []) = "a".toList ∧
    (path_translate false [] "a/b\\c".toList (some [])).length ≠ "a/b\\c".toList.length ∧
    (path_translate false [] "a/b\\c".toList (some [])).get? 1 = none := by
  decide

/-- Claim C9, as amended.  For a separator string `sep` that is not empty, of
first character `c`, path_translate keeps the length of the path, puts `c`
wherever the path has `/` or `\`, and keeps every other character; for the
empty separator string it returns the characters of the path before its first
`/` or `\`; with no separator given it is the translation to `\` on Windows
targets and to `/` otherwise. -/
theorem path_translate_spec (w : Bool) (buf p : CStr) (c : Char) (rest : CStr) :
    (path_translate w buf p (some (c :: rest))).length = p.length ∧
    (∀ (i : Nat) (x : Char), p.get? i = some x →
      (path_translate w buf p (some (c :: rest))).get? i =
        some (if x = '/' ∨ x = '\\' then c else x)) ∧
    path_translate w buf p (some []) =
      p.takeWhile (fun x => !(x == '/' || x == '\\')) ∧
    path_translate w buf p none =
      path_translate w buf p (some (if w then ['\\'] else ['/'])) := by
  refine ⟨translateChars_length c p, ?_, cutAtSeparator_eq_takeWhile p, ?_⟩
  · intro i x hx
    rw [path_translate_some_cons, translateChars_get?, hx]
    rfl
  · cases w <;> rfl

/-- Witness of claim C9 as amended: in `a/b\c` the character at index 3 is `\`;
translated with `/` it is `/`; with the empty separator string the path becomes
`a`; with no separator given it becomes `a\b\c` on a Windows target and `a/b/c`
elsewhere. -/
theorem path_translate_spec_witness :
    (path_translate true "old".toList "a/b\\c".toList (some ['/'])).length = 5 ∧
    (path_translate true "old".toList "a/b\\c".toList (some ['/'])).get? 3 = some '/' ∧
    path_translate true "old".toList "a/b\\c".toList (some []) = "a".toList ∧
    path_translate true "old".toList "a/b\\c".toList none = "a\\b\\c".toList ∧
    path_translate false "old".toList "a/b\\c".toList none = "a/b/c".toList :=
  have h := path_translate_spec true "old".toList "a/b\\c".toList '/' []
  ⟨h.1.trans (by decide), (h.2.1 3 '\\' (by decide)).trans (by decide),
   h.2.2.1.trans (by decide), h.2.2.2.trans (by decide), by decide⟩

/-- Claim C10.  path_directory returns the part of the path before its last
`/`, and the empty string when the path has no `/`. -/
theorem path_directory_spec (buf d f : CStr) (hf : '/' ∉ f) :
    path_directory buf (d ++ '/' :: f) = d ∧ path_directory buf f = [] := by
  constructor
  · simp only [path_directory, strcpy, strrchr_append d f hf, truncateAt]
    simp
  · have hnone : strrchr f '/' = none := by
      cases h : strrchr f '/' with
      | none => rfl
      | some i =>
        exfalso
        apply hf
        rw [(strrchr_some h).1]
        simp
    simp [path_directory, strcpy, hnone, truncateAt]

/-- Witness of claim C10: the directory of `a/b/c.txt` is `a/b`, that of
`c.txt` is empty, and a `\` is no separator: the directory of `a/b\c` is `a`. -/
theorem path_directory_spec_witness :
    path_directory "old".toList "a/b/c.txt".toList = "a/b".toList ∧
    path_directory "old".toList "c.txt".toList = [] ∧
    path_directory "old".toList "a/b\\c".toList = "a".toList ∧
    path_directory "old".toList "b\\c".toList = [] :=
  have h1 := path_directory_spec "old".toList "a/b".toList "c.txt".toList (by decide)
  have h2 := path_directory_spec "old".toList "a".toList "b\\c".toList (by decide)
  ⟨h1.1, h1.2, h2.1, h2.2⟩

/-! ## Joining, splitting and translating together -/

/-- With the buffer of the join handed out empty: for a non-empty `dir` that
does not end with `/` and a relative file name `f` without `/`, the join
returns and the directory of the joined path is `dir`. -/
theorem path_directory_of_join_empty_buffer (buf dir f : CStr)
    (hne : dir ≠ []) (hend : dir.getLast? ≠ some '/')
    (hrel : path_is_absolute f = some false) (hf : '/' ∉ f) :
    ∃ joined : CStr,
      path_join [] (some dir) (some f) = some joined ∧ path_directory buf joined = dir := by
  obtain ⟨joined, hj, ej⟩ := path_join_empty_buffer_some dir f hrel
  refine ⟨joined, hj, ?_⟩
  rw [ej, if_neg (by simp [hne, hend])]
  simp only [path_directory, strcpy, strrchr_append dir f hf, truncateAt]
  simp

/-- On an empty buffer `src/base` joined with `file.txt` is
`src/base/file.txt`, whose directory is `src/base`. -/
theorem path_directory_of_join_empty_buffer_example :
    (∃ joined : CStr,
      path_join [] (some "src/base".toList) (some "file.txt".toList) = some joined ∧
      path_directory "old".toList joined = "src/base".toList) ∧
    path_join [] (some "src/base".toList) (some "file.txt".toList) =
      some "src/base/file.txt".toList :=
  ⟨path_directory_of_join_empty_buffer "old".toList "src/base".toList "file.txt".toList
    (by decide) (by decide) (by decide) (by decide), by decide⟩

theorem translateChars_translateChars (c d : Char) (hc : c = '/' ∨ c = '\\') (p : CStr) :
    translateChars d (translateChars c p) = translateChars d p := by
  induction p with
  | nil => rfl
  | cons x xs ih =>
    simp only [translateChars, ih]
    congr 1
    by_cases hx : x = '/' ∨ x = '\\'
    · simp only [if_pos hx, if_pos hc]
    · simp only [if_neg hx]

/-- Translating to a character leaves a path without the other separator as it is. -/
theorem translateChars_backslash_id (p : CStr) (h : '/' ∉ p) :
    translateChars '\\' p = p := by
  induction p with
  | nil => rfl
  | cons x xs ih =>
    simp only [List.mem_cons, not_or] at h
    have hx : x ≠ '/' := fun e => h.1 e.symm
    simp only [translateChars, ih h.2]
    by_cases hb : x = '\\'
    · simp [hb]
    · simp [hx, hb]

theorem translateChars_slash_id (p : CStr) (h : '\\' ∉ p) :
    translateChars '/' p = p := by
  induction p with
  | nil => rfl
  | cons x xs ih =>
    simp only [List.mem_cons, not_or] at h
    have hx : x ≠ '\\' := fun e => h.1 e.symm
    simp only [translateChars, ih h.2]
    by_cases hb : x = '/'
    · simp [hb]
    · simp [hx, hb]

/-- Claim C12.  Translating to `/` and then to `\` is translating to `\`: the
length and every character that is no separator stay, and a path whose only
separators are `\` comes back unchanged. -/
theorem path_translate_round_trip (w : Bool) (b1 b2 b3 p : CStr) :
    path_translate w b2 (path_translate w b1 p (some ['/'])) (some ['\\']) =
        path_translate w b3 p (some ['\\']) ∧
      (path_translate w b2 (path_translate w b1 p (some ['/'])) (some ['\\'])).length =
        p.length ∧
      (∀ (i : Nat) (x : Char), p.get? i = some x → ¬ (x = '/' ∨ x = '\\') →
        (path_translate w b2 (path_translate w b1 p (some ['/'])) (some ['\\'])).get? i =
          some x) ∧
      ('/' ∉ p →
        path_translate w b2 (path_translate w b1 p (some ['/'])) (some ['\\']) = p) := by
  simp only [path_translate_some_cons]
  rw [translateChars_translateChars '/' '\\' (Or.inl rfl)]
  refine ⟨rfl, translateChars_length _ p, ?_, translateChars_backslash_id p⟩
  intro i x hx hsep
  rw [translateChars_get?, hx]
  simp [hsep]

/-- Witness of claim C12: `a/b\c.txt` goes to `a\b\c.txt`, and `a\b` comes
back as it is. -/
theorem path_translate_round_trip_witness :
    path_translate false [] (path_translate false [] "a/b\\c.txt".toList (some ['/']))
        (some ['\\']) = "a\\b\\c.txt".toList ∧
    path_translate false [] (path_translate false [] "a\\b".toList (some ['/']))
        (some ['\\']) = "a\\b".toList ∧
    (path_translate false [] (path_translate false [] "a/b\\c.txt".toList (some ['/']))
        (some ['\\'])).get? 4 = some 'c' :=
  have h1 := path_translate_round_trip false [] [] [] "a/b\\c.txt".toList
  have h2 := path_translate_round_trip false [] [] [] "a\\b".toList
  ⟨h1.1.trans (by decide), h2.2.2.2 (by decide), h1.2.2.1 4 'c' (by decide) (by decide)⟩

/-- Claim C13.  path_assemble is path_join of the directory and the file name
with the extension appended as it is; when the file name is absolute the result
is the file name followed by the extension, whatever the directory. -/
theorem path_assemble_spec (buf dir filename ext : CStr) :
    path_assemble buf dir filename (some ext) =
        (path_join buf (some dir) (some filename)).map (fun joined => joined ++ ext) ∧
      (path_is_absolute filename = some true →
        path_assemble buf dir filename (some ext) = some (filename ++ ext)) := by
  constructor
  · unfold path_assemble
    cases path_join buf (some dir) (some filename) <;> rfl
  · intro habs
    simp [path_assemble, path_join, habs, strcpy, strcat]

/-- Witness of claim C13: `dir`, `name` and `.c` give `dir/name.c` on an empty
buffer; with the absolute file name `/abs/name` the directory is dropped. -/
theorem path_assemble_spec_witness :
    path_assemble [] "dir".toList "name".toList (some ".c".toList) =
      some "dir/name.c".toList ∧
    path_assemble "old".toList "dir".toList "/abs/name".toList (some ".c".toList) =
      some "/abs/name.c".toList :=
  ⟨(path_assemble_spec [] "dir".toList "name".toList ".c".toList).1.trans (by decide),
   (path_assemble_spec "old".toList "dir".toList "/abs/name".toList ".c".toList).2
     (by decide)⟩

/-- Claim C14.  The empty path and the path `.` both resolve to the current
directory, unchanged. -/
theorem path_absolute_empty_and_dot (buf cwd : CStr) :
    path_absolute buf cwd [] = some cwd ∧ path_absolute buf cwd ['.'] = some cwd ∧
      path_absolute buf cwd [] = path_absolute buf cwd ['.'] := by
  have h1 : path_absolute buf cwd [] = some cwd := rfl
  have h2 : path_absolute buf cwd ['.'] = some cwd := rfl
  exact ⟨h1, h2, h1.trans h2.symm⟩

/-! ## Popping above the top -/

theorem popSegment_of_not_mem (acc : CStr) (h : '/' ∉ acc) : popSegment acc = acc := by
  simp [popSegment, h]

/-- A pop takes one `/` away, when there is one. -/
theorem count_popSegment (acc : CStr) :
    (popSegment acc).count '/' = acc.count '/' - 1 := by
  rw [← strrchr_pop]
  cases h : strrchr acc '/' with
  | none =>
    have hn := strrchr_none h
    simp [List.count_eq_zero_of_not_mem hn]
  | some up =>
    obtain ⟨h1, h2, _⟩ := strrchr_some h
    simp only [truncateAt]
    conv_rhs => rw [h1]
    simp [List.count_append, List.count_cons, List.count_eq_zero_of_not_mem h2]

theorem count_iterate_popSegment (j : Nat) (acc : CStr) :
    (popSegment^[j] acc).count '/' = acc.count '/' - j := by
  induction j generalizing acc with
  | zero => simp
  | succ n ih =>
    rw [Function.iterate_succ_apply, ih, count_popSegment]
    omega

theorem iterate_popSegment_of_not_mem (j : Nat) (acc : CStr) (h : '/' ∉ acc) :
    popSegment^[j] acc = acc := by
  induction j with
  | zero => rfl
  | succ n ih => rw [Function.iterate_succ_apply, popSegment_of_not_mem acc h, ih]

/-- Once as many pops are done as the text has `/`, further pops change nothing. -/
theorem iterate_popSegment_stable (acc : CStr) (k : Nat) (hk : acc.count '/' ≤ k) :
    popSegment^[k] acc = popSegment^[acc.count '/'] acc := by
  obtain ⟨j, rfl⟩ := Nat.exists_eq_add_of_le hk
  rw [Nat.add_comm, Function.iterate_add_apply]
  apply iterate_popSegment_of_not_mem
  have hc := count_iterate_popSegment (acc.count '/') acc
  rw [Nat.sub_self] at hc
  exact List.count_eq_zero.mp hc

theorem segments_dotdotPath (k : Nat) :
    segments (dotdotPath (k + 1)) = List.replicate (k + 1) ['.', '.'] := by
  induction k with
  | zero => decide
  | succ n ih =>
    have hs : strchr (dotdotPath (n + 2)) '/' = some 2 := by
      simp [dotdotPath, strchr]
    rw [segments_of_strchr_some hs]
    simp only [dotdotPath, List.take, List.drop]
    rw [ih]
    rfl

theorem translateChars_dotdotPath (k : Nat) :
    translateChars '/' (dotdotPath (k + 1)) = dotdotPath (k + 1) := by
  induction k with
  | zero => decide
  | succ n ih =>
    simp only [dotdotPath, translateChars] at ih ⊢
    rw [ih]
    simp

theorem path_is_absolute_dotdotPath (k : Nat) :
    path_is_absolute (dotdotPath (k + 1)) = some false := by
  cases k with
  | zero => decide
  | succ n => simp [dotdotPath, path_is_absolute_cons]

theorem resolveSegments_replicate (k : Nat) (acc : CStr) :
    resolveSegments acc (List.replicate k ['.', '.']) = popSegment^[k] acc := by
  induction k generalizing acc with
  | zero => rfl
  | succ n ih =>
    rw [Function.iterate_succ_apply, ← ih]
    simp [resolveSegments, List.replicate_succ, foldSegment]

/-- The path of `k` segments `..` resolves to the current directory popped `k`
times. -/
theorem path_absolute_dotdotPath (buf cwd : CStr) (k : Nat) :
    path_absolute buf cwd (dotdotPath k) = some (popSegment^[k] cwd) := by
  cases k with
  | zero => rfl
  | succ n =>
    rw [path_absolute_relative buf cwd _ (path_is_absolute_dotdotPath n),
      translateChars_dotdotPath, segments_dotdotPath, resolveSegments_replicate]

/-- Claim C15.  A loop body run on the segment `..` leaves a result without `/`
as it is; and with at least as many `..` segments as the current directory has
`/`, the path resolves to what exactly that many `..` segments resolve to. -/
theorem path_absolute_dotdot_clamps (buf cwd : CStr) (k : Nat)
    (hk : cwd.count '/' ≤ k) :
    (∀ source acc : CStr, currentSegment source = ['.', '.'] → '/' ∉ acc →
        (absoluteStep source acc).2 = acc) ∧
      ∃ r : CStr, path_absolute buf cwd (dotdotPath k) = some r ∧
        path_absolute buf cwd (dotdotPath (cwd.count '/')) = some r := by
  constructor
  · intro source acc hseg hacc
    have h := absoluteStep_snd source acc
    simp only [currentSegment, truncateAt] at hseg
    rw [h, hseg]
    simp [foldSegment, popSegment_of_not_mem acc hacc]
  · refine ⟨_, path_absolute_dotdotPath buf cwd k, ?_⟩
    rw [path_absolute_dotdotPath, iterate_popSegment_stable cwd k hk]

/-- Witness of claim C15: `/home/x` has two `/`; five `..` segments and two
`..` segments both resolve to the empty text, and from `C:` the segment `..`
gives `C:` back. -/
theorem path_absolute_dotdot_clamps_witness :
    (∃ r : CStr, path_absolute [] "/home/x".toList (dotdotPath 5) = some r ∧
      path_absolute [] "/home/x".toList (dotdotPath ("/home/x".toList.count '/')) = some r) ∧
    path_absolute [] "/home/x".toList "../../../../..".toList = some [] ∧
    path_absolute [] "/home/x".toList "../..".toList = some [] ∧
    path_absolute [] "C:".toList "..".toList = some "C:".toList :=
  ⟨(path_absolute_dotdot_clamps [] "/home/x".toList 5 (by decide)).2,
   by decide, by decide, by decide⟩

/-! ## Reads, termination and loop runs -/

theorem path_is_absolute_traced_snd (p : CStr) :
    (path_is_absolute_traced p).2 = path_is_absolute p := by
  unfold path_is_absolute_traced path_is_absolute
  split
  · rfl
  · split
    · rfl
    · split <;> rfl

theorem path_is_absolute_traced_fst (p : CStr) (i : Nat)
    (hi : i ∈ (path_is_absolute_traced p).1) : i ≤ 1 := by
  unfold path_is_absolute_traced at hi
  split at hi
  · simp at hi; omega
  · split at hi
    · simp at hi; omega
    · split at hi <;> simp at hi <;> omega

theorem absoluteSource_ne_nil (buf path : CStr) : absoluteSource buf path ≠ [] := by
  unfold absoluteSource
  simp only [strlen, strcpy]
  split
  · simp
  · rename_i h
    exact fun e => h (by rw [e]; rfl)

/-- The function path_absolute, written with the string it tests. -/
theorem path_absolute_eq_source (buf cwd path : CStr) :
    path_absolute buf cwd path =
      (match path_is_absolute (absoluteSource buf path) with
        | none => none
        | some true => some (absoluteSource buf path)
        | some false =>
          absoluteLoop (strlen (absoluteSource buf path) + 1)
            (some (absoluteSource buf path)) cwd) := rfl

theorem path_is_absolute_isSome (p : CStr) (hne : p ≠ []) :
    (path_is_absolute p).isSome = true := by
  cases p with
  | nil => exact absurd rfl hne
  | cons x xs => rw [path_is_absolute_cons]; rfl

theorem path_absolute_isSome (buf cwd path : CStr) :
    (path_absolute buf cwd path).isSome = true := by
  rw [path_absolute_eq_source]
  have hne := absoluteSource_ne_nil buf path
  have hs := path_is_absolute_isSome _ hne
  cases h : path_is_absolute (absoluteSource buf path) with
  | none => rw [h] at hs; cases hs
  | some b =>
    cases b with
    | true => rfl
    | false =>
      simp only [strlen]
      rw [absoluteLoop_eq_fold _ _ _ (Nat.lt_succ_self _)]
      rfl

/-- Claim C16.  On a non-empty path every index path_is_absolute reads is at
most the length of the path, the index of the terminator, so the function
returns; and path_absolute calls it on a string that is never empty, and
returns itself. -/
theorem path_is_absolute_reads_in_bounds (p : CStr) (hne : p ≠ []) :
    (path_is_absolute_traced p).2 = path_is_absolute p ∧
      (∀ i ∈ (path_is_absolute_traced p).1, i ≤ p.length ∧ (readChar p i).isSome = true) ∧
      (path_is_absolute p).isSome = true ∧
      (∀ buf cwd path : CStr,
        absoluteSource buf path ≠ [] ∧
        (path_is_absolute (absoluteSource buf path)).isSome = true ∧
        (path_absolute buf cwd path).isSome = true) := by
  have hlen : 1 ≤ p.length := List.length_pos.mpr hne
  refine ⟨path_is_absolute_traced_snd p, ?_, path_is_absolute_isSome p hne, ?_⟩
  · intro i hi
    have h1 := path_is_absolute_traced_fst p i hi
    refine ⟨by omega, ?_⟩
    unfold readChar
    by_cases hlt : i < p.length
    · simp only [if_pos hlt]
      rw [List.get?_eq_get hlt]
      rfl
    · have : i = p.length := by omega
      simp [this]
  · intro buf cwd path
    exact ⟨absoluteSource_ne_nil buf path,
      path_is_absolute_isSome _ (absoluteSource_ne_nil buf path),
      path_absolute_isSome buf cwd path⟩

/-- Witness of claim C16: on the one-character path `a` the reads are at
indices 0 and 1, index 1 being the terminator, and the verdict is false; on the
empty string index 1 is outside. -/
theorem path_is_absolute_reads_in_bounds_witness :
    (∀ i ∈ (path_is_absolute_traced ['a']).1,
      i ≤ ['a'].length ∧ (readChar ['a'] i).isSome = true) ∧
    path_is_absolute_traced ['a'] = ([0, 1], some false) ∧
    path_is_absolute_traced [] = ([0, 1], none) ∧
    absoluteSource [] [] = ['.'] :=
  ⟨(path_is_absolute_reads_in_bounds ['a'] (by decide)).2.1, by decide, by decide, by decide⟩

/-- A path has one segment more than it has `/`. -/
theorem segments_length (s : CStr) : (segments s).length = s.count '/' + 1 := by
  induction s with
  | nil => rfl
  | cons x xs ih =>
    unfold segments List.splitOn at ih ⊢
    rw [List.splitOnP_cons]
    by_cases hx : x = '/'
    · subst hx
      simp [ih]
    · have hb : (x == '/') = false := by simpa using hx
      have hne := List.splitOnP_ne_nil (fun y => y == '/') xs
      simp only [hb, Bool.false_eq_true, if_false]
      cases hsp : List.splitOnP (fun y => y == '/') xs with
      | nil => exact absurd hsp hne
      | cons a as =>
        rw [hsp] at ih
        have hc : List.count '/' (x :: xs) = List.count '/' xs := by
          rw [List.count_cons]
          simp [hb]
        rw [hc, ← ih]
        rfl

theorem currentSegment_of_strchr_none {s : CStr} (h : strchr s '/' = none) :
    currentSegment s = s := by
  simp [currentSegment, h]

theorem currentSegment_of_strchr_some {s : CStr} {e : Nat} (h : strchr s '/' = some e) :
    currentSegment s = s.take e := by
  simp [currentSegment, h, truncateAt]

/-- With more fuel than the source has characters, the recorded loop returns:
it has seen the segments of the source in their order, and its result is that
of the loop. -/
theorem absoluteLoopTraced_eq (fuel : Nat) (source result : CStr) (seen : List CStr)
    (hfuel : source.length < fuel) :
    absoluteLoopTraced fuel (some source) result seen =
      some (seen ++ segments source, resolveSegments result (segments source)) := by
  induction fuel generalizing source result seen with
  | zero => omega
  | succ n ih =>
    simp only [absoluteLoopTraced]
    have hsnd := absoluteStep_snd source result
    cases h : strchr source '/' with
    | none =>
      have hfst : (absoluteStep source result).1 = none := by
        simp [absoluteStep, h]
      rw [hfst, hsnd, h, segments_of_strchr_none h, currentSegment_of_strchr_none h]
      cases n <;> simp [absoluteLoopTraced, resolveSegments]
    | some e =>
      have hfst : (absoluteStep source result).1 = some (source.drop (e + 1)) := by
        simp [absoluteStep, h]
      obtain ⟨_, _, hlt⟩ := strchr_some h
      rw [hfst, hsnd, h, segments_of_strchr_some h, currentSegment_of_strchr_some h]
      rw [ih _ _ _ (by simp only [List.length_drop]; omega)]
      simp [resolveSegments]

/-- Claim C17.  For a relative path the segment loop returns whenever it is
given more runs than the translated path has characters.  A body run with a
`/` ahead moves the source to just behind the first `/`, which shortens it; a
body run with none ends the loop.  The body runs once per segment, in their
order, that is one time more than the translated path has `/`. -/
theorem absolute_loop_runs (buf cwd p : CStr) (fuel : Nat)
    (hrel : path_is_absolute p = some false)
    (hfuel : (path_translate false buf p (some ['/'])).length < fuel) :
    (∀ (source result : CStr) (e : Nat), strchr source '/' = some e →
        (absoluteStep source result).1 = some (source.drop (e + 1)) ∧
        source.take (e + 1) = currentSegment source ++ ['/'] ∧
        (source.drop (e + 1)).length < source.length) ∧
      (∀ source result : CStr, strchr source '/' = none →
        (absoluteStep source result).1 = none) ∧
      ∃ (seen : List CStr) (result : CStr),
        absoluteLoopTraced fuel (some (path_translate false buf p (some ['/']))) cwd [] =
          some (seen, result) ∧
        path_absolute buf cwd p = some result ∧
        seen = segments (path_translate false buf p (some ['/'])) ∧
        seen.length = (path_translate false buf p (some ['/'])).count '/' + 1 := by
  refine ⟨?_, ?_, ?_⟩
  · intro source result e h
    obtain ⟨h1, _, hlt⟩ := strchr_some h
    refine ⟨by simp [absoluteStep, h], ?_, by simp only [List.length_drop]; omega⟩
    rw [currentSegment_of_strchr_some h]
    conv_lhs => rw [h1]
    have hl : (List.take e source).length = e := by
      rw [List.length_take]; omega
    rw [List.take_append_eq_append_take, hl]
    simp
  · intro source result h
    simp [absoluteStep, h]
  · refine ⟨segments (path_translate false buf p (some ['/'])),
      resolveSegments cwd (segments (path_translate false buf p (some ['/']))),
      ?_, ?_, rfl, segments_length _⟩
    · rw [absoluteLoopTraced_eq fuel _ cwd [] hfuel]
      rfl
    · exact path_absolute_relative buf cwd p hrel

/-- Witness of claim C17: on `a/b/../c`, from `/home/x`, the body runs four
times, on `a`, `b`, `..` and `c`, for three `/`; three runs are not enough. -/
theorem absolute_loop_runs_witness :
    absoluteLoopTraced 9 (some "a/b/../c".toList) "/home/x".toList [] =
      some (["a".toList, "b".toList, "..".toList, "c".toList], "/home/x/a/c".toList) ∧
    absoluteLoopTraced 4 (some "a/b/../c".toList) "/home/x".toList [] =
      some (["a".toList, "b".toList, "..".toList, "c".toList], "/home/x/a/c".toList) ∧
    absoluteLoopTraced 3 (some "a/b/../c".toList) "/home/x".toList [] = none ∧
    ∃ (seen : List CStr) (result : CStr),
        absoluteLoopTraced 9 (some (path_translate false [] "a/b/../c".toList (some ['/'])))
          "/home/x".toList [] = some (seen, result) ∧
        path_absolute [] "/home/x".toList "a/b/../c".toList = some result ∧
        seen = segments (path_translate false [] "a/b/../c".toList (some ['/'])) ∧
        seen.length = (path_translate false [] "a/b/../c".toList (some ['/'])).count '/' + 1 :=
  ⟨by decide, by decide, by decide,
   (absolute_loop_runs [] "/home/x".toList "a/b/../c".toList 9 (by decide) (by decide)).2.2⟩

/-! ## Translation and absoluteness, idempotence -/

/-- Claim C18.  Translating a non-empty path with `/` or with `\` keeps the
verdict of path_is_absolute, which is returned on both. -/
theorem path_is_absolute_translate (w : Bool) (buf p sep : CStr)
    (hne : p ≠ []) (hsep : sep = ['/'] ∨ sep = ['\\']) :
    path_is_absolute (path_translate w buf p (some sep)) = path_is_absolute p ∧
      (path_is_absolute p).isSome = true := by
  refine ⟨?_, path_is_absolute_isSome p hne⟩
  rcases hsep with h | h
  · rw [h, path_translate_some_cons]
    exact path_is_absolute_translateChars '/' (Or.inl rfl) p
  · rw [h, path_translate_some_cons]
    exact path_is_absolute_translateChars '\\' (Or.inr rfl) p

/-- Witness of claim C18: `C:\foo` stays absolute and `foo\bar` stays relative
when translated with `/`. -/
theorem path_is_absolute_translate_witness :
    path_is_absolute (path_translate false [] "C:\\foo".toList (some ['/'])) = some true ∧
    path_is_absolute (path_translate false [] "foo\\bar".toList (some ['/'])) = some false ∧
    path_is_absolute (path_translate false [] "\\foo".toList (some ['\\'])) = some true :=
  ⟨(path_is_absolute_translate false [] "C:\\foo".toList ['/'] (by decide)
      (Or.inl rfl)).1.trans (by decide),
   (path_is_absolute_translate false [] "foo\\bar".toList ['/'] (by decide)
      (Or.inl rfl)).1.trans (by decide),
   (path_is_absolute_translate false [] "\\foo".toList ['\\'] (by decide)
      (Or.inr rfl)).1.trans (by decide)⟩

theorem not_mem_backslash_translateChars (p : CStr) : '\\' ∉ translateChars '/' p := by
  induction p with
  | nil => simp [translateChars]
  | cons x xs ih =>
    simp only [translateChars, List.mem_cons, not_or]
    refine ⟨?_, ih⟩
    by_cases hx : x = '/' ∨ x = '\\'
    · simp only [if_pos hx]; decide
    · simp only [if_neg hx]
      exact fun e => hx (Or.inr e.symm)

/-- One loop body keeps the result empty or led by `/`, and free of `\`, when
the source holds no `\`. -/
theorem absoluteStep_rooted (source result : CStr) (hs : '\\' ∉ source)
    (hhead : result = [] ∨ result.head? = some '/') (hbs : '\\' ∉ result) :
    ((absoluteStep source result).2 = [] ∨
        (absoluteStep source result).2.head? = some '/') ∧
      '\\' ∉ (absoluteStep source result).2 := by
  have hseg : '\\' ∉ (match strchr source '/' with
      | some e => source.take e
      | none => source) := by
    split
    · exact fun h => hs (List.mem_of_mem_take h)
    · exact hs
  rw [absoluteStep_snd]
  generalize (match strchr source '/' with
      | some e => source.take e
      | none => source) = seg at hseg
  unfold foldSegment
  split
  · rw [← strrchr_pop]
    split
    · rename_i up _
      simp only [truncateAt]
      refine ⟨?_, fun h => hbs (List.mem_of_mem_take h)⟩
      rcases hhead with h | h
      · simp [h]
      · cases up with
        | zero => simp
        | succ n =>
          cases result with
          | nil => simp
          | cons x xs => right; simpa using h
    · exact ⟨hhead, hbs⟩
  · split
    · exact ⟨hhead, hbs⟩
    · refine ⟨?_, ?_⟩
      · right
        cases result with
        | nil => rfl
        | cons x xs =>
          rcases hhead with h | h
          · cases h
          · simpa using h
      · simp only [List.mem_append, List.mem_cons, not_or]
        exact ⟨hbs, by decide, hseg⟩

theorem absoluteLoop_rooted (fuel : Nat) (source result r : CStr) (hs : '\\' ∉ source)
    (hhead : result = [] ∨ result.head? = some '/') (hbs : '\\' ∉ result)
    (h : absoluteLoop fuel (some source) result = some r) :
    (r = [] ∨ r.head? = some '/') ∧ '\\' ∉ r := by
  induction fuel generalizing source result with
  | zero => simp [absoluteLoop] at h
  | succ n ih =>
    simp only [absoluteLoop] at h
    obtain ⟨h1, h2⟩ := absoluteStep_rooted source result hs hhead hbs
    cases hn : (absoluteStep source result).1 with
    | none =>
      rw [hn] at h
      have : (absoluteStep source result).2 = r := by
        cases n <;> simpa [absoluteLoop] using h
      rw [← this]
      exact ⟨h1, h2⟩
    | some next =>
      rw [hn] at h
      have hnext : '\\' ∉ next := by
        cases hc : strchr source '/' with
        | none => simp [absoluteStep, hc] at hn
        | some e =>
          have : next = source.drop (e + 1) := by
            simp [absoluteStep, hc] at hn
            exact hn.symm
          rw [this]
          exact fun hm => hs (List.mem_of_mem_drop hm)
      exact ih next _ hnext h1 h2 h

/-- An absolute path comes back from path_absolute translated to `/`. -/
theorem path_absolute_source_absolute (buf cwd p : CStr)
    (habs : path_is_absolute p = some true) :
    path_absolute buf cwd p = some (translateChars '/' p) := by
  have hne : p ≠ [] := by
    intro e
    rw [e, path_is_absolute_nil] at habs
    cases habs
  have hlen : (translateChars '/' p).length ≠ 0 := by
    rw [translateChars_length]
    exact fun e => hne (List.length_eq_zero.mp e)
  have habs2 : path_is_absolute (translateChars '/' p) = some true := by
    rw [path_is_absolute_translateChars '/' (Or.inl rfl), habs]
  simp only [path_absolute, path_translate_some_cons, strlen, if_neg hlen, habs2]

/-- Claim C19.  With a current directory that begins with `/` and holds no `\`,
a non-empty result of path_absolute is returned unchanged when path_absolute is
run on it again. -/
theorem path_absolute_idempotent (buf buf2 cwd p r : CStr)
    (hcwd : cwd.head? = some '/') (hbs : '\\' ∉ cwd)
    (hr : path_absolute buf cwd p = some r) (hne : r ≠ []) :
    path_absolute buf2 cwd r = some r := by
  have key : path_is_absolute r = some true ∧ '\\' ∉ r := by
    rw [path_absolute_eq_source] at hr
    have hsrc : '\\' ∉ absoluteSource buf p := by
      unfold absoluteSource
      simp only [path_translate_some_cons, strlen, strcpy]
      split
      · decide
      · exact not_mem_backslash_translateChars p
    cases hb : path_is_absolute (absoluteSource buf p) with
    | none => rw [hb] at hr; cases hr
    | some b =>
      rw [hb] at hr
      cases b with
      | true =>
        simp only [Option.some.injEq] at hr
        rw [← hr]
        exact ⟨hb, hsrc⟩
      | false =>
        simp only at hr
        obtain ⟨h1, h2⟩ := absoluteLoop_rooted _ _ cwd r hsrc (Or.inr hcwd) hbs hr
        refine ⟨?_, h2⟩
        cases r with
        | nil => exact absurd rfl hne
        | cons x xs =>
          rcases h1 with h | h
          · cases h
          · have hx : x = '/' := by simpa using h
            rw [path_is_absolute_cons, hx]
            rfl
  rw [path_absolute_source_absolute buf2 cwd r key.1, translateChars_slash_id r key.2]

/-- Witness of claim C19: from `/home/x`, `a/../b` resolves to `/home/x/b`,
which resolves to itself. -/
theorem path_absolute_idempotent_witness :
    path_absolute [] "/home/x".toList "a/../b".toList = some "/home/x/b".toList ∧
    path_absolute [] "/home/x".toList "/home/x/b".toList = some "/home/x/b".toList :=
  ⟨by decide,
   path_absolute_idempotent [] [] "/home/x".toList "a/../b".toList "/home/x/b".toList
     (by decide) (by decide) (by decide) (by decide)⟩

end Path
